import Mathlib

/-!
Verification of the `rs-complete` completion-tree library
(`src/completion_tree.rs`, `src/lib.rs`).

The Rust code is shallowly embedded: strings (`&str`, `String`) become
`List Char` (Rust `char` and Lean `Char` are both Unicode scalar values);
`BTreeMap<char, CompletionNode>` becomes an association list kept in
ascending key order by the insertion helper; `BTreeSet<char>` (the
inclusion set) becomes a `List Char` used only through membership;
`Option<Vec<String>>` becomes `Option (List (List Char))`.  The `u32`
counters (`word_count`, `subnode_count`) are modelled as unbounded `Nat`:
every count considered here is far below `2^32`, and Rust's debug
semantics panics rather than wraps on overflow.
-/

/-- Model of Rust's Unicode-aware `char::is_alphanumeric` (the Alphabetic
property together with the Nd/Nl/No general categories).  The model is
exact on every code point below `U+0100` — the full Basic Latin and
Latin-1 Supplement blocks, which cover all characters exercised by this
development and by the repository's tests; code points at or above
`U+0100` are outside the modelled range (no theorem below depends on how
they are classified). -/
def Char.is_alphanumeric (c : Char) : Bool :=
  (c.isAlpha || c.isDigit) ||
  (c.val == 0xAA || c.val == 0xB5 || c.val == 0xBA) ||
  (c.val == 0xB2 || c.val == 0xB3 || c.val == 0xB9) ||
  (0xBC ≤ c.val && c.val ≤ 0xBE) ||
  (0xC0 ≤ c.val && c.val ≤ 0xFF && c.val != 0xD7 && c.val != 0xF7)

/-- Model of Rust's `char::is_whitespace`: the complete (finite) Unicode
`White_Space` set, reproduced exactly. -/
def Char.is_whitespace (c : Char) : Bool :=
  (0x09 ≤ c.val && c.val ≤ 0x0D) || c.val == 0x20 || c.val == 0x85 ||
  c.val == 0xA0 || c.val == 0x1680 ||
  (0x2000 ≤ c.val && c.val ≤ 0x200A) ||
  c.val == 0x2028 || c.val == 0x2029 || c.val == 0x202F ||
  c.val == 0x205F || c.val == 0x3000

/-- `str::len()`: the length of a word in UTF-8 code units (bytes), the
quantity Rust's `word.len()` computes on a `&str`. -/
def utf8Len (w : List Char) : Nat :=
  (w.map Char.utf8Size).sum

/-- Helper for `splitWhitespace`: `acc` is the (possibly empty) word
fragment accumulated since the last whitespace character. -/
def splitWhitespaceAux : List Char → List Char → List (List Char)
  | [], acc => if acc.isEmpty then [] else [acc]
  | c :: cs, acc =>
      if c.is_whitespace then
        if acc.isEmpty then splitWhitespaceAux cs []
        else acc :: splitWhitespaceAux cs []
      else splitWhitespaceAux cs (acc ++ [c])

/-- Model of Rust's `str::split_whitespace`: split on maximal runs of
whitespace, yielding no empty tokens. -/
def splitWhitespace (l : List Char) : List (List Char) :=
  splitWhitespaceAux l []

/-- Helper for `splitSep` with a non-empty pattern `s0 :: srest`:
standard leftmost-match splitting.  The `fuel` argument only makes the
recursion structural (each step consumes at least one input character,
so any `fuel` at least the input length — as supplied by `splitSep` —
never reaches the `0` case on a non-empty input). -/
def splitSepGo (s0 : Char) (srest : List Char) : Nat → List Char → List Char → List (List Char)
  | 0, _, acc => [acc]
  | _ + 1, [], acc => [acc]
  | fuel + 1, c :: cs, acc =>
      if (s0 :: srest).isPrefixOf (c :: cs) then
        acc :: splitSepGo s0 srest fuel (cs.drop srest.length) []
      else splitSepGo s0 srest fuel cs (acc ++ [c])

/-- Model of Rust's `str::split` with a literal string pattern (used by
`CompletionTree::insert` under `WordSeparator::Separator`).  An empty
pattern matches at every character boundary, including the start and end
of the string, exactly as in Rust. -/
def splitSep (sep : List Char) (l : List Char) : List (List Char) :=
  match sep with
  | [] => [] :: (l.map fun c => [c]) ++ [[]]
  | s0 :: srest => splitSepGo s0 srest l.length l []

/-- `CompletionNode` from `completion_tree.rs`: a trie vertex.  The
`BTreeMap<char, CompletionNode>` of subnodes is an association list in
ascending key order (maintained by `listInsert`); `leaf` is the terminal
flag.  The Rust field `inclusions` is an `Arc` to the one inclusion set
shared by every node of a tree, so it is passed as a parameter to the
node operations instead of being stored per node. -/
inductive CompletionNode : Type where
  | mk (subnodes : List (Char × CompletionNode)) (leaf : Bool)

/-- The `subnodes` field. -/
def CompletionNode.subnodes : CompletionNode → List (Char × CompletionNode)
  | .mk s _ => s

/-- The `leaf` field. -/
def CompletionNode.leaf : CompletionNode → Bool
  | .mk _ l => l

/-- `CompletionNode::new`: fresh node, no subnodes, not a leaf. -/
def CompletionNode.new : CompletionNode :=
  .mk [] false

mutual

/-- `CompletionNode::word_count`: number of set leaf flags in the
subtree. -/
def CompletionNode.word_count : CompletionNode → Nat
  | .mk subs leaf => wordCountL subs + (if leaf then 1 else 0)

/-- Sum of `word_count` over a subnode list (the `.values().map(..).sum()`
of the source). -/
def wordCountL : List (Char × CompletionNode) → Nat
  | [] => 0
  | (_, n) :: rest => n.word_count + wordCountL rest

end

mutual

/-- `CompletionNode::subnode_count`: number of nodes in the subtree,
including the node itself. -/
def CompletionNode.subnode_count : CompletionNode → Nat
  | .mk subs _ => subnodeCountL subs + 1

/-- Sum of `subnode_count` over a subnode list. -/
def subnodeCountL : List (Char × CompletionNode) → Nat
  | [] => 0
  | (_, n) :: rest => n.subnode_count + subnodeCountL rest

end

mutual

/-- `CompletionNode::collect`: all completion suffixes below (and at,
when terminal) this node, each prefixed by the accumulated `part`. -/
def CompletionNode.collect : CompletionNode → List Char → List (List Char)
  | .mk subs leaf, part => (if leaf then [part] else []) ++ collectL subs part

/-- `collect` folded over a subnode list in order (the source's `for`
loop over the `BTreeMap`). -/
def collectL : List (Char × CompletionNode) → List Char → List (List Char)
  | [], _ => []
  | (c, n) :: rest, part => n.collect (part ++ [c]) ++ collectL rest part

end

/-- Lookup in the subnode association list: `self.subnodes.get(&c)`. -/
def listLookup (subs : List (Char × CompletionNode)) (c : Char) : Option CompletionNode :=
  match subs with
  | [] => none
  | (k, n) :: rest => if k = c then some n else listLookup rest c

/-- Store a binding in the subnode association list, keeping ascending
key order: the update performed by `self.subnodes.entry(c)`. -/
def listInsert (subs : List (Char × CompletionNode)) (c : Char) (n : CompletionNode) :
    List (Char × CompletionNode) :=
  match subs with
  | [] => [(c, n)]
  | (k, m) :: rest =>
      if c < k then (c, n) :: (k, m) :: rest
      else if c = k then (c, n) :: rest
      else (k, m) :: listInsert rest c n

/-- The word-constituent test of `CompletionNode::insert`:
`self.inclusions.contains(&c) || c.is_alphanumeric()`. -/
def accepted (incl : List Char) (c : Char) : Bool :=
  incl.contains c || c.is_alphanumeric

/-- `CompletionNode::insert`: consume accepted characters, creating the
child chain; on exhaustion or on the first non-accepted character, mark
the current node as a leaf (truncating the word there). -/
def CompletionNode.insert (incl : List Char) : CompletionNode → List Char → CompletionNode
  | .mk subs _, [] => .mk subs true
  | .mk subs leaf, c :: cs =>
      if accepted incl c then
        let child := (listLookup subs c).getD CompletionNode.new
        .mk (listInsert subs c (child.insert incl cs)) leaf
      else .mk subs true

/-- `CompletionNode::complete`: walk the trie along the characters; on a
missing child return `none`, on exhaustion collect every suffix. -/
def CompletionNode.complete : CompletionNode → List Char → Option (List (List Char))
  | n, [] => some (n.collect [])
  | n, c :: cs =>
      match listLookup n.subnodes c with
      | some child => child.complete cs
      | none => none

/-- `CompletionNode::clear`: `self.subnodes.clear()` — the subnode map is
emptied but the node's own `leaf` flag is left untouched. -/
def CompletionNode.clear : CompletionNode → CompletionNode
  | .mk _ leaf => .mk [] leaf

/-- Rust's `Ord` on `String`/`str` (byte-lexicographic, which for UTF-8
agrees with code-point-lexicographic order), as the Boolean `≤` used to
model `extensions.sort()`. -/
def lexLe : List Char → List Char → Bool
  | [], _ => true
  | _ :: _, [] => false
  | a :: as, b :: bs =>
      if a.toNat < b.toNat then true
      else if a.toNat = b.toNat then lexLe as bs
      else false

/-- Insert a string into a `lexLe`-sorted list, keeping it sorted. -/
def insertSorted (x : List Char) : List (List Char) → List (List Char)
  | [] => [x]
  | y :: ys => if lexLe x y then x :: y :: ys else y :: insertSorted x ys

/-- Model of `extensions.sort()` (Rust's stable sort under `Ord`): since
`lexLe` is a total, antisymmetric order, the sorted permutation of a
list is unique, so insertion sort computes exactly the list Rust's sort
produces. -/
def sortStrings : List (List Char) → List (List Char)
  | [] => []
  | x :: xs => insertSorted x (sortStrings xs)

/-- `WordSeparator` from `completion_tree.rs`. -/
inductive WordSeparator : Type where
  | Whitespace
  | Separator (sep : List Char)

/-- `CompletionTree` from `completion_tree.rs`. -/
structure CompletionTree : Type where
  root : CompletionNode
  inclusions : List Char
  min_word_len : Nat
  separator : WordSeparator

/-- `CompletionTree::default()`: empty root, empty inclusion set,
minimum word length 5, whitespace separator. -/
def CompletionTree.default : CompletionTree :=
  { root := CompletionNode.new, inclusions := [], min_word_len := 5,
    separator := WordSeparator.Whitespace }

/-- `CompletionTree::with_inclusions`: like `default` but with the given
extra accepted characters. -/
def CompletionTree.with_inclusions (incl : List Char) : CompletionTree :=
  { root := CompletionNode.new, inclusions := incl, min_word_len := 5,
    separator := WordSeparator.Whitespace }

/-- `CompletionTree::insert_word`: insert a single token into the root
if its byte length (`word.len()`) is at least `min_word_len`. -/
def CompletionTree.insert_word (t : CompletionTree) (word : List Char) : CompletionTree :=
  if utf8Len word ≥ t.min_word_len then
    { t with root := t.root.insert t.inclusions word }
  else t

/-- `CompletionTree::insert`: split the line by the configured separator
policy and insert every token. -/
def CompletionTree.insert (t : CompletionTree) (line : List Char) : CompletionTree :=
  match t.separator with
  | WordSeparator.Whitespace => (splitWhitespace line).foldl CompletionTree.insert_word t
  | WordSeparator.Separator sep => (splitSep sep line).foldl CompletionTree.insert_word t

/-- The mutator `CompletionTree::separator` (named `set_separator` here
because the Lean structure already uses `separator` for the field it
sets). -/
def CompletionTree.set_separator (t : CompletionTree) (sep : WordSeparator) : CompletionTree :=
  { t with separator := sep }

/-- `line.split_whitespace().last().unwrap_or("")` from
`CompletionTree::complete`. -/
def lastWordOf (line : List Char) : List Char :=
  ((splitWhitespace line).getLast?).getD []

/-- `CompletionTree::complete`: on a non-empty line, walk the root along
the last whitespace-delimited token; sort the resulting extension list
and append each extension to the full original line. -/
def CompletionTree.complete (t : CompletionTree) (line : List Char) :
    Option (List (List Char)) :=
  if line ≠ [] then
    match t.root.complete (lastWordOf line) with
    | some extensions => some ((sortStrings extensions).map fun ext => line ++ ext)
    | none => none
  else none

/-- `CompletionTree::clear`. -/
def CompletionTree.clear (t : CompletionTree) : CompletionTree :=
  { t with root := t.root.clear }

/-- `CompletionTree::word_count`. -/
def CompletionTree.word_count (t : CompletionTree) : Nat :=
  t.root.word_count

/-- `CompletionTree::size`. -/
def CompletionTree.size (t : CompletionTree) : Nat :=
  t.root.subnode_count

/-- `CompletionTree::set_min_word_len`. -/
def CompletionTree.set_min_word_len (t : CompletionTree) (len : Nat) : CompletionTree :=
  { t with min_word_len := len }

/-- The accepted form of a word: its longest initial run of
word-constituent characters, i.e. what `CompletionNode::insert` actually
stores before truncation. -/
def accForm (incl : List Char) (w : List Char) : List Char :=
  w.takeWhile (accepted incl)

/-- Walk the trie along a character sequence, returning the node reached
(the path-following part of `CompletionNode::complete`). -/
def CompletionNode.walk : CompletionNode → List Char → Option CompletionNode
  | n, [] => some n
  | n, c :: cs =>
      match listLookup n.subnodes c with
      | some child => child.walk cs
      | none => none

/-- A word is contained in the trie when walking it succeeds and ends on
a leaf-marked node. -/
def containsW (n : CompletionNode) (w : List Char) : Bool :=
  match n.walk w with
  | some m => m.leaf
  | none => false

/-- `k` is strictly below every key of the subnode list. -/
def keysLB (k : Char) : List (Char × CompletionNode) → Bool
  | [] => true
  | (k2, _) :: rest => decide (k < k2) && keysLB k rest

/-- The subnode list has strictly ascending keys (the `BTreeMap`
invariant at one level). -/
def keysChain : List (Char × CompletionNode) → Bool
  | [] => true
  | (k, _) :: rest => keysLB k rest && keysChain rest

mutual

/-- Every subnode map in the subtree has strictly ascending keys: the
shape invariant a `BTreeMap<char, CompletionNode>` guarantees. -/
def keysOK : CompletionNode → Bool
  | .mk subs _ => keysChain subs && keysOKL subs

/-- `keysOK` over a subnode list. -/
def keysOKL : List (Char × CompletionNode) → Bool
  | [] => true
  | (_, n) :: rest => keysOK n && keysOKL rest

end

/-- Walking any non-empty path that exists in the trie lands on a node
with at least one completion: the invariant behind the spec's "matched
but zero completions cannot occur once a path is found". -/
def wfN (n : CompletionNode) : Prop :=
  ∀ w m, w ≠ [] → n.walk w = some m → m.collect [] ≠ []

/-- Tree states reachable through the public API: the two constructors
and the mutating operations (`insert`, `clear`, `set_min_word_len`,
separator configuration). -/
inductive Reachable : CompletionTree → Prop where
  | default_tree : Reachable CompletionTree.default
  | with_inclusions (incl : List Char) : Reachable (CompletionTree.with_inclusions incl)
  | insert {t : CompletionTree} (line : List Char) :
      Reachable t → Reachable (t.insert line)
  | clear {t : CompletionTree} : Reachable t → Reachable t.clear
  | set_min_word_len {t : CompletionTree} (len : Nat) :
      Reachable t → Reachable (t.set_min_word_len len)
  | set_separator {t : CompletionTree} (sep : WordSeparator) :
      Reachable t → Reachable (t.set_separator sep)

theorem listLookup_listInsert_self (subs : List (Char × CompletionNode)) (c : Char)
    (n : CompletionNode) : listLookup (listInsert subs c n) c = some n := by
  induction subs with
  | nil => simp [listInsert, listLookup]
  | cons hd rest ih =>
      obtain ⟨k, m⟩ := hd
      by_cases hlt : c < k
      · simp [listInsert, hlt, listLookup]
      · by_cases heq : c = k
        · simp [listInsert, hlt, heq, listLookup]
        · simp [listInsert, hlt, heq, listLookup, Ne.symm heq, ih]

theorem listLookup_listInsert_ne (subs : List (Char × CompletionNode)) (c d : Char)
    (n : CompletionNode) (hne : d ≠ c) :
    listLookup (listInsert subs c n) d = listLookup subs d := by
  induction subs with
  | nil => simp [listInsert, listLookup, Ne.symm hne]
  | cons hd rest ih =>
      obtain ⟨k, m⟩ := hd
      by_cases hlt : c < k
      · simp [listInsert, hlt, listLookup, Ne.symm hne]
      · by_cases heq : c = k
        · subst heq
          simp [listInsert, hlt, listLookup, Ne.symm hne]
        · simp only [listInsert, if_neg hlt, if_neg heq, listLookup]
          by_cases hkd : k = d
          · simp [hkd]
          · simp [hkd, ih]

theorem mem_listInsert_self (subs : List (Char × CompletionNode)) (c : Char)
    (n : CompletionNode) : (c, n) ∈ listInsert subs c n := by
  induction subs with
  | nil => simp [listInsert]
  | cons hd rest ih =>
      obtain ⟨k, m⟩ := hd
      by_cases hlt : c < k
      · simp [listInsert, hlt]
      · by_cases heq : c = k
        · simp [listInsert, hlt, heq]
        · simp [listInsert, hlt, heq, ih]

theorem walk_append (n : CompletionNode) (p s : List Char) :
    n.walk (p ++ s) = (n.walk p).bind (fun m => m.walk s) := by
  induction p generalizing n with
  | nil => simp [CompletionNode.walk]
  | cons c cs ih =>
      simp only [List.cons_append, CompletionNode.walk]
      cases listLookup n.subnodes c with
      | none => simp
      | some child => simp [ih]

theorem containsW_new (w : List Char) : containsW CompletionNode.new w = false := by
  cases w with
  | nil => rfl
  | cons c cs => rfl

theorem insert_nil (n : CompletionNode) :
    n.insert incl [] = CompletionNode.mk n.subnodes true := by
  cases n; rfl

theorem insert_cons_acc (subs : List (Char × CompletionNode)) (leaf : Bool) (incl : List Char)
    (c : Char) (cs : List Char) (h : accepted incl c = true) :
    (CompletionNode.mk subs leaf).insert incl (c :: cs) =
      CompletionNode.mk
        (listInsert subs c (((listLookup subs c).getD CompletionNode.new).insert incl cs))
        leaf := by
  simp [CompletionNode.insert, h]

theorem insert_cons_nacc (subs : List (Char × CompletionNode)) (leaf : Bool) (incl : List Char)
    (c : Char) (cs : List Char) (h : accepted incl c = false) :
    (CompletionNode.mk subs leaf).insert incl (c :: cs) = CompletionNode.mk subs true := by
  simp [CompletionNode.insert, h]

theorem insert_accForm (incl : List Char) (n : CompletionNode) (w : List Char) :
    n.insert incl w = n.insert incl (accForm incl w) := by
  induction w generalizing n with
  | nil => rfl
  | cons c cs ih =>
      cases n with
      | mk subs leaf =>
          by_cases h : accepted incl c = true
          · have haf : accForm incl (c :: cs) = c :: accForm incl cs := by
              simp [accForm, List.takeWhile_cons, h]
            rw [haf, insert_cons_acc subs leaf incl c cs h,
              insert_cons_acc subs leaf incl c (accForm incl cs) h, ih]
          · have h0 : accepted incl c = false := by simpa using h
            simp [accForm, List.takeWhile_cons, h0, insert_cons_nacc _ _ _ _ _ h0,
              insert_nil, CompletionNode.subnodes]

theorem containsW_insert_of_all (incl : List Char) (w : List Char)
    (hacc : ∀ c ∈ w, accepted incl c = true) (n : CompletionNode) :
    containsW (n.insert incl w) w = true := by
  induction w generalizing n with
  | nil =>
      cases n with
      | mk subs leaf => simp [insert_nil, containsW, CompletionNode.walk, CompletionNode.leaf]
  | cons c cs ih =>
      cases n with
      | mk subs leaf =>
          have hc : accepted incl c = true := hacc c (by simp)
          rw [insert_cons_acc _ _ _ _ _ hc]
          simp only [containsW, CompletionNode.walk, CompletionNode.subnodes,
            listLookup_listInsert_self]
          exact ih (fun d hd => hacc d (by simp [hd])) _

theorem accForm_all_accepted (incl : List Char) (w : List Char) :
    ∀ c ∈ accForm incl w, accepted incl c = true := by
  intro c hc
  exact List.mem_takeWhile_imp hc

theorem containsW_insert_accForm (incl : List Char) (n : CompletionNode) (w : List Char) :
    containsW (n.insert incl w) (accForm incl w) = true := by
  rw [insert_accForm]
  exact containsW_insert_of_all incl _ (accForm_all_accepted incl w) n

theorem containsW_insert_mono (incl : List Char) (v : List Char) :
    ∀ (n : CompletionNode) (w : List Char), containsW n v = true →
      containsW (n.insert incl w) v = true := by
  induction v with
  | nil =>
      intro n w h
      cases n with
      | mk subs leaf =>
          have hleaf : leaf = true := by
            simpa [containsW, CompletionNode.walk, CompletionNode.leaf] using h
          cases w with
          | nil => simp [insert_nil, containsW, CompletionNode.walk, CompletionNode.leaf]
          | cons c cs =>
              by_cases hc : accepted incl c = true
              · rw [insert_cons_acc _ _ _ _ _ hc]
                simp [containsW, CompletionNode.walk, CompletionNode.leaf, hleaf]
              · have hc0 : accepted incl c = false := by simpa using hc
                rw [insert_cons_nacc _ _ _ _ _ hc0]
                simp [containsW, CompletionNode.walk, CompletionNode.leaf]
  | cons d ds ih =>
      intro n w h
      cases n with
      | mk subs leaf =>
          simp only [containsW, CompletionNode.walk, CompletionNode.subnodes] at h
          cases hlk : listLookup subs d with
          | none => simp [hlk] at h
          | some m =>
              rw [hlk] at h
              cases w with
              | nil =>
                  simp [insert_nil, containsW, CompletionNode.walk, CompletionNode.subnodes, hlk]
                  simpa [containsW] using h
              | cons c cs =>
                  by_cases hc : accepted incl c = true
                  · rw [insert_cons_acc _ _ _ _ _ hc]
                    by_cases hdc : d = c
                    · subst hdc
                      simp only [containsW, CompletionNode.walk, CompletionNode.subnodes,
                        listLookup_listInsert_self, hlk, Option.getD_some]
                      have := ih m cs h
                      simpa [containsW] using this
                    · simp only [containsW, CompletionNode.walk, CompletionNode.subnodes,
                        listLookup_listInsert_ne _ _ _ _ hdc, hlk]
                      simpa [containsW] using h
                  · have hc0 : accepted incl c = false := by simpa using hc
                    rw [insert_cons_nacc _ _ _ _ _ hc0]
                    simp only [containsW, CompletionNode.walk, CompletionNode.subnodes, hlk]
                    simpa [containsW] using h

theorem containsW_insert_rev_all (incl : List Char) (v : List Char) :
    ∀ (n : CompletionNode) (w : List Char), (∀ c ∈ w, accepted incl c = true) →
      containsW (n.insert incl w) v = true → containsW n v = true ∨ v = w := by
  induction v with
  | nil =>
      intro n w hacc h
      cases n with
      | mk subs leaf =>
          cases w with
          | nil => right; rfl
          | cons c cs =>
              left
              have hc : accepted incl c = true := hacc c (by simp)
              rw [insert_cons_acc _ _ _ _ _ hc] at h
              simpa [containsW, CompletionNode.walk, CompletionNode.leaf] using h
  | cons d ds ih =>
      intro n w hacc h
      cases n with
      | mk subs leaf =>
          cases w with
          | nil =>
              left
              rw [insert_nil] at h
              simpa [containsW, CompletionNode.walk, CompletionNode.subnodes] using h
          | cons c cs =>
              have hc : accepted incl c = true := hacc c (by simp)
              rw [insert_cons_acc _ _ _ _ _ hc] at h
              by_cases hdc : d = c
              · subst hdc
                simp only [containsW, CompletionNode.walk, CompletionNode.subnodes,
                  listLookup_listInsert_self] at h
                have h2 : containsW (((listLookup subs d).getD CompletionNode.new).insert incl cs)
                    ds = true := by simpa [containsW] using h
                cases hlk : listLookup subs d with
                | none =>
                    rw [hlk] at h2
                    simp only [Option.getD_none] at h2
                    rcases ih CompletionNode.new cs (fun e he => hacc e (by simp [he])) h2
                      with h3 | h3
                    · rw [containsW_new] at h3
                      exact absurd h3 (by simp)
                    · right; rw [h3]
                | some m =>
                    rw [hlk] at h2
                    rcases ih _ cs (fun e he => hacc e (by simp [he])) h2 with h3 | h3
                    · left
                      simpa [containsW, CompletionNode.walk, CompletionNode.subnodes, hlk]
                        using h3
                    · right; rw [h3]
              · left
                simp only [containsW, CompletionNode.walk, CompletionNode.subnodes,
                  listLookup_listInsert_ne _ _ _ _ hdc] at h
                simpa [containsW, CompletionNode.walk, CompletionNode.subnodes] using h

theorem containsW_insert_rev (incl : List Char) (n : CompletionNode) (w v : List Char)
    (h : containsW (n.insert incl w) v = true) :
    containsW n v = true ∨ v = accForm incl w := by
  rw [insert_accForm] at h
  exact containsW_insert_rev_all incl v n (accForm incl w) (accForm_all_accepted incl w) h

theorem collect_mk (subs : List (Char × CompletionNode)) (leaf : Bool) (part : List Char) :
    (CompletionNode.mk subs leaf).collect part =
      (if leaf then [part] else []) ++ collectL subs part := by
  rw [CompletionNode.collect]

theorem collectL_cons (c : Char) (n : CompletionNode) (rest : List (Char × CompletionNode))
    (part : List Char) :
    collectL ((c, n) :: rest) part = n.collect (part ++ [c]) ++ collectL rest part := by
  rw [collectL]

theorem mem_of_listLookup (subs : List (Char × CompletionNode)) (c : Char) (m : CompletionNode)
    (h : listLookup subs c = some m) : (c, m) ∈ subs := by
  induction subs with
  | nil => simp [listLookup] at h
  | cons hd rest ih =>
      obtain ⟨k, n⟩ := hd
      by_cases hk : k = c
      · subst hk
        rw [listLookup] at h
        simp at h
        subst h
        exact List.mem_cons_self _ _
      · rw [listLookup] at h
        rw [if_neg hk] at h
        exact List.mem_cons_of_mem _ (ih h)

theorem mem_collectL_of_mem (subs : List (Char × CompletionNode)) (c : Char)
    (m : CompletionNode) (part x : List Char) (hmem : (c, m) ∈ subs)
    (hx : x ∈ m.collect (part ++ [c])) : x ∈ collectL subs part := by
  induction subs with
  | nil => simp at hmem
  | cons hd rest ih =>
      obtain ⟨k, n⟩ := hd
      rw [collectL_cons]
      rcases List.mem_cons.mp hmem with heq | htl
      · injection heq with hk hn
        subst hk; subst hn
        exact List.mem_append_left _ hx
      · exact List.mem_append_right _ (ih htl)

theorem mem_collect_of_containsW (s : List Char) :
    ∀ (m : CompletionNode) (part : List Char), containsW m s = true →
      (part ++ s) ∈ m.collect part := by
  induction s with
  | nil =>
      intro m part h
      cases m with
      | mk subs leaf =>
          have hleaf : leaf = true := by
            simpa [containsW, CompletionNode.walk, CompletionNode.leaf] using h
          subst hleaf
          simp [collect_mk]
  | cons c cs ih =>
      intro m part h
      cases m with
      | mk subs leaf =>
          simp only [containsW, CompletionNode.walk, CompletionNode.subnodes] at h
          cases hlk : listLookup subs c with
          | none => simp [hlk] at h
          | some child =>
              rw [hlk] at h
              have h2 : containsW child cs = true := by simpa [containsW] using h
              have hmem : (c, child) ∈ subs := mem_of_listLookup subs c child hlk
              have hx : (part ++ [c] ++ cs) ∈ child.collect (part ++ [c]) := ih child _ h2
              rw [collect_mk]
              refine List.mem_append_right _ ?_
              have := mem_collectL_of_mem subs c child part (part ++ [c] ++ cs) hmem hx
              simpa using this

theorem node_complete_eq_walk (n : CompletionNode) (w : List Char) :
    n.complete w = (n.walk w).map (fun m => m.collect []) := by
  induction w generalizing n with
  | nil => simp [CompletionNode.complete, CompletionNode.walk]
  | cons c cs ih =>
      simp only [CompletionNode.complete, CompletionNode.walk]
      cases listLookup n.subnodes c with
      | none => simp
      | some child => simp [ih]

theorem keysLB_of_lt (c k : Char) (subs : List (Char × CompletionNode)) (hck : c < k)
    (h : keysLB k subs = true) : keysLB c subs = true := by
  induction subs with
  | nil => rfl
  | cons hd rest ih =>
      obtain ⟨k2, n⟩ := hd
      simp only [keysLB, Bool.and_eq_true, decide_eq_true_eq] at h ⊢
      exact ⟨lt_trans hck h.1, ih h.2⟩

theorem keysLB_lookup_none (c : Char) (subs : List (Char × CompletionNode))
    (h : keysLB c subs = true) : listLookup subs c = none := by
  induction subs with
  | nil => rfl
  | cons hd rest ih =>
      obtain ⟨k, n⟩ := hd
      simp only [keysLB, Bool.and_eq_true, decide_eq_true_eq] at h
      have hne : k ≠ c := fun he => absurd (he ▸ h.1) (lt_irrefl c)
      simp [listLookup, hne, ih h.2]

theorem keysLB_listInsert (d c : Char) (subs : List (Char × CompletionNode))
    (m : CompletionNode) (hdc : d < c) (h : keysLB d subs = true) :
    keysLB d (listInsert subs c m) = true := by
  induction subs with
  | nil => simp [listInsert, keysLB, hdc]
  | cons hd rest ih =>
      obtain ⟨k, n⟩ := hd
      simp only [keysLB, Bool.and_eq_true, decide_eq_true_eq] at h
      by_cases hlt : c < k
      · simp [listInsert, hlt, keysLB, hdc, h.1, h.2]
      · by_cases heq : c = k
        · subst heq
          simp [listInsert, hlt, keysLB, hdc, h.2]
        · simp [listInsert, hlt, heq, keysLB, h.1, ih h.2]

theorem keysChain_listInsert (c : Char) (subs : List (Char × CompletionNode))
    (m : CompletionNode) (h : keysChain subs = true) :
    keysChain (listInsert subs c m) = true := by
  induction subs with
  | nil => simp [listInsert, keysChain, keysLB]
  | cons hd rest ih =>
      obtain ⟨k, n⟩ := hd
      simp only [keysChain, Bool.and_eq_true] at h
      by_cases hlt : c < k
      · have hlb : keysLB c rest = true := keysLB_of_lt c k rest hlt h.1
        simp [listInsert, hlt, keysChain, keysLB, h.1, h.2, hlb]
      · by_cases heq : c = k
        · subst heq
          simp [listInsert, hlt, keysChain, h.1, h.2]
        · have hkc : k < c := by
            rcases lt_trichotomy c k with h1 | h1 | h1
            · exact absurd h1 hlt
            · exact absurd h1 heq
            · exact h1
          simp [listInsert, hlt, heq, keysChain, ih h.2,
            keysLB_listInsert k c rest m hkc h.1]

theorem keysOK_mk (subs : List (Char × CompletionNode)) (leaf : Bool) :
    keysOK (CompletionNode.mk subs leaf) = (keysChain subs && keysOKL subs) := by
  rw [keysOK]

theorem keysOKL_cons (p : Char × CompletionNode) (rest : List (Char × CompletionNode)) :
    keysOKL (p :: rest) = (keysOK p.2 && keysOKL rest) := by
  obtain ⟨c, n⟩ := p
  rw [keysOKL]

theorem keysOK_of_mem (subs : List (Char × CompletionNode)) (c : Char) (m : CompletionNode)
    (hmem : (c, m) ∈ subs) (h : keysOKL subs = true) : keysOK m = true := by
  induction subs with
  | nil => simp at hmem
  | cons hd rest ih =>
      rw [keysOKL_cons] at h
      simp only [Bool.and_eq_true] at h
      rcases List.mem_cons.mp hmem with heq | htl
      · subst heq
        exact h.1
      · exact ih htl h.2

theorem keysOKL_listInsert (subs : List (Char × CompletionNode)) (c : Char)
    (m : CompletionNode) (hs : keysOKL subs = true) (hm : keysOK m = true) :
    keysOKL (listInsert subs c m) = true := by
  induction subs with
  | nil => simp [listInsert, keysOKL_cons, keysOKL, hm]
  | cons hd rest ih =>
      obtain ⟨k, n⟩ := hd
      rw [keysOKL_cons] at hs
      simp only [Bool.and_eq_true] at hs
      by_cases hlt : c < k
      · simp [listInsert, hlt, keysOKL_cons, keysOKL, hm, hs.1, hs.2]
      · by_cases heq : c = k
        · subst heq
          simp [listInsert, hlt, keysOKL_cons, hm, hs.2]
        · simp [listInsert, hlt, heq, keysOKL_cons, hs.1, ih hs.2]

theorem keysOK_new : keysOK CompletionNode.new = true := rfl

theorem keysOK_insert (incl : List Char) (w : List Char) :
    ∀ (n : CompletionNode), keysOK n = true → keysOK (n.insert incl w) = true := by
  induction w with
  | nil =>
      intro n h
      cases n with
      | mk subs leaf =>
          rw [insert_nil]
          simpa [keysOK_mk, CompletionNode.subnodes] using h
  | cons c cs ih =>
      intro n h
      cases n with
      | mk subs leaf =>
          by_cases hc : accepted incl c = true
          · rw [insert_cons_acc _ _ _ _ _ hc]
            rw [keysOK_mk] at h ⊢
            simp only [Bool.and_eq_true] at h ⊢
            have hchild : keysOK ((listLookup subs c).getD CompletionNode.new) = true := by
              cases hlk : listLookup subs c with
              | none => simpa using keysOK_new
              | some child =>
                  simpa using keysOK_of_mem subs c child (mem_of_listLookup subs c child hlk)
                    h.2
            exact ⟨keysChain_listInsert c subs _ h.1,
              keysOKL_listInsert subs c _ h.2 (ih _ hchild)⟩
          · have hc0 : accepted incl c = false := by simpa using hc
            rw [insert_cons_nacc _ _ _ _ _ hc0]
            simpa [keysOK_mk] using h

theorem word_count_mk (subs : List (Char × CompletionNode)) (leaf : Bool) :
    (CompletionNode.mk subs leaf).word_count = wordCountL subs + (if leaf then 1 else 0) := by
  rw [CompletionNode.word_count]

theorem wordCountL_pair (c : Char) (n : CompletionNode) (rest : List (Char × CompletionNode)) :
    wordCountL ((c, n) :: rest) = n.word_count + wordCountL rest := by
  rw [wordCountL]

theorem wordCountL_listInsert_none (subs : List (Char × CompletionNode)) (c : Char)
    (m : CompletionNode) (h : listLookup subs c = none) :
    wordCountL (listInsert subs c m) = wordCountL subs + m.word_count := by
  induction subs with
  | nil => simp [listInsert, wordCountL_pair, wordCountL]
  | cons hd rest ih =>
      obtain ⟨k, n⟩ := hd
      rw [listLookup] at h
      have hkc : ¬ k = c := by
        intro he
        rw [if_pos he] at h
        exact Option.some_ne_none n h
      rw [if_neg hkc] at h
      by_cases hlt : c < k
      · simp only [listInsert, if_pos hlt]
        simp only [wordCountL_pair]
        omega
      · by_cases heq : c = k
        · exact absurd heq.symm hkc
        · simp only [listInsert, if_neg hlt, if_neg heq]
          rw [wordCountL_pair, wordCountL_pair, ih h]
          omega

theorem wordCountL_listInsert_some (subs : List (Char × CompletionNode)) (c : Char)
    (child m : CompletionNode) (hch : keysChain subs = true)
    (h : listLookup subs c = some child) :
    wordCountL (listInsert subs c m) + child.word_count = wordCountL subs + m.word_count := by
  induction subs with
  | nil => simp [listLookup] at h
  | cons hd rest ih =>
      obtain ⟨k, n⟩ := hd
      rw [keysChain] at hch
      simp only [Bool.and_eq_true] at hch
      by_cases hlt : c < k
      · have hlb : keysLB c rest = true := keysLB_of_lt c k rest hlt hch.1
        have hnone : listLookup ((k, n) :: rest) c = none := by
          have hne : k ≠ c := fun he => absurd (he ▸ hlt) (lt_irrefl c)
          simp [listLookup, hne, keysLB_lookup_none c rest hlb]
        rw [hnone] at h
        exact absurd h (Option.noConfusion)
      · by_cases heq : c = k
        · subst heq
          rw [listLookup] at h
          rw [if_pos rfl] at h
          have hn : n = child := by simpa using h
          have hins : listInsert ((c, n) :: rest) c m = (c, m) :: rest := by
            simp [listInsert, hlt]
          rw [hins, wordCountL_pair, wordCountL_pair, hn]
          omega
        · rw [listLookup] at h
          rw [if_neg (fun he => heq he.symm)] at h
          simp only [listInsert, if_neg hlt, if_neg heq]
          rw [wordCountL_pair, wordCountL_pair]
          have := ih hch.2 h
          omega

theorem word_count_insert_all (incl : List Char) (w : List Char)
    (hacc : ∀ c ∈ w, accepted incl c = true) :
    ∀ (n : CompletionNode), keysOK n = true →
      (n.insert incl w).word_count =
        n.word_count + (if containsW n w = true then 0 else 1) := by
  induction w with
  | nil =>
      intro n hok
      cases n with
      | mk subs leaf =>
          rw [insert_nil]
          simp only [CompletionNode.subnodes, word_count_mk]
          have hcw : containsW (CompletionNode.mk subs leaf) [] = leaf := by
            simp [containsW, CompletionNode.walk, CompletionNode.leaf]
          rw [hcw]
          cases leaf <;> simp
  | cons c cs ih =>
      intro n hok
      cases n with
      | mk subs leaf =>
          have hc : accepted incl c = true := hacc c (by simp)
          rw [insert_cons_acc _ _ _ _ _ hc]
          rw [word_count_mk, word_count_mk]
          rw [keysOK_mk] at hok
          simp only [Bool.and_eq_true] at hok
          have hacc2 : ∀ e ∈ cs, accepted incl e = true := fun e he => hacc e (by simp [he])
          cases hlk : listLookup subs c with
          | none =>
              simp only [Option.getD_none]
              rw [wordCountL_listInsert_none subs c _ hlk]
              have hnew : ((CompletionNode.new).insert incl cs).word_count = 1 := by
                rw [ih hacc2 CompletionNode.new keysOK_new, containsW_new]
                simp [CompletionNode.new, word_count_mk, wordCountL]
              rw [hnew]
              have hcw : containsW (CompletionNode.mk subs leaf) (c :: cs) = false := by
                simp [containsW, CompletionNode.walk, CompletionNode.subnodes, hlk]
              rw [hcw]
              simp only [Bool.false_eq_true, if_false]
              omega
          | some child =>
              simp only [Option.getD_some]
              have hchok : keysOK child = true :=
                keysOK_of_mem subs c child (mem_of_listLookup subs c child hlk) hok.2
              have hwc :=
                wordCountL_listInsert_some subs c child (child.insert incl cs) hok.1 hlk
              have hins : (child.insert incl cs).word_count =
                  child.word_count + (if containsW child cs = true then 0 else 1) :=
                ih hacc2 child hchok
              have hcw : containsW (CompletionNode.mk subs leaf) (c :: cs) =
                  containsW child cs := by
                simp [containsW, CompletionNode.walk, CompletionNode.subnodes, hlk]
              rw [hcw]
              rw [hins] at hwc
              cases hcc : containsW child cs <;> simp [hcc] at hwc ⊢ <;> omega

theorem word_count_insert (incl : List Char) (n : CompletionNode) (w : List Char)
    (hok : keysOK n = true) :
    (n.insert incl w).word_count =
      n.word_count + (if containsW n (accForm incl w) = true then 0 else 1) := by
  rw [insert_accForm]
  exact word_count_insert_all incl (accForm incl w) (accForm_all_accepted incl w) n hok

theorem collect_of_collectL_nil (subs : List (Char × CompletionNode)) (part : List Char)
    (h : collectL subs part = []) :
    ∀ c n, (c, n) ∈ subs → n.collect (part ++ [c]) = [] := by
  induction subs with
  | nil => intro c n h2; simp at h2
  | cons hd rest ih =>
      obtain ⟨k, m⟩ := hd
      rw [collectL_cons] at h
      rcases List.append_eq_nil.mp h with ⟨h1, h2⟩
      intro c n hmem
      rcases List.mem_cons.mp hmem with heq | htl
      · injection heq with e1 e2
        subst e1; subst e2
        exact h1
      · exact ih h2 c n htl

theorem collect_insert_ne_nil (incl : List Char) (w : List Char) :
    ∀ (n : CompletionNode) (part : List Char), (n.insert incl w).collect part ≠ [] := by
  induction w with
  | nil =>
      intro n part
      cases n with
      | mk subs leaf =>
          rw [insert_nil]
          simp [collect_mk, CompletionNode.subnodes]
  | cons c cs ih =>
      intro n part
      cases n with
      | mk subs leaf =>
          by_cases hc : accepted incl c = true
          · rw [insert_cons_acc _ _ _ _ _ hc, collect_mk]
            intro hemp
            rcases List.append_eq_nil.mp hemp with ⟨_, h2⟩
            have hmem := mem_listInsert_self subs c
              (((listLookup subs c).getD CompletionNode.new).insert incl cs)
            have hnil := collect_of_collectL_nil _ part h2 c _ hmem
            exact ih ((listLookup subs c).getD CompletionNode.new) (part ++ [c]) hnil
          · have hc0 : accepted incl c = false := by simpa using hc
            rw [insert_cons_nacc _ _ _ _ _ hc0]
            simp [collect_mk]

theorem walk_cons_some (subs : List (Char × CompletionNode)) (leaf : Bool)
    (child : CompletionNode) (c : Char) (cs : List Char)
    (hlk : listLookup subs c = some child) :
    (CompletionNode.mk subs leaf).walk (c :: cs) = child.walk cs := by
  rw [CompletionNode.walk, CompletionNode.subnodes, hlk]

theorem walk_cons_none (subs : List (Char × CompletionNode)) (leaf : Bool) (c : Char)
    (cs : List Char) (hlk : listLookup subs c = none) :
    (CompletionNode.mk subs leaf).walk (c :: cs) = none := by
  rw [CompletionNode.walk, CompletionNode.subnodes, hlk]

theorem wfN_new : wfN CompletionNode.new := by
  intro w m hw hwalk
  cases w with
  | nil => exact absurd rfl hw
  | cons c cs =>
      rw [CompletionNode.new, walk_cons_none [] false c cs rfl] at hwalk
      exact absurd hwalk (Option.noConfusion)

theorem wfN_clear (n : CompletionNode) : wfN n.clear := by
  intro w m hw hwalk
  cases n with
  | mk subs leaf =>
      cases w with
      | nil => exact absurd rfl hw
      | cons c cs =>
          rw [CompletionNode.clear, walk_cons_none [] leaf c cs rfl] at hwalk
          exact absurd hwalk (Option.noConfusion)

theorem wfN_insert (incl : List Char) (w : List Char) :
    ∀ (n : CompletionNode), wfN n → wfN (n.insert incl w) := by
  induction w with
  | nil =>
      intro n hwf v m hv hwalk
      cases n with
      | mk subs leaf =>
          rw [insert_nil, CompletionNode.subnodes] at hwalk
          cases v with
          | nil => exact absurd rfl hv
          | cons d ds =>
              apply hwf (d :: ds) m (by simp)
              cases hlk : listLookup subs d with
              | none =>
                  rw [walk_cons_none subs true d ds hlk] at hwalk
                  exact absurd hwalk (Option.noConfusion)
              | some child =>
                  rw [walk_cons_some subs true child d ds hlk] at hwalk
                  rw [walk_cons_some subs leaf child d ds hlk]
                  exact hwalk
  | cons c cs ih =>
      intro n hwf v m hv hwalk
      cases n with
      | mk subs leaf =>
          by_cases hc : accepted incl c = true
          · rw [insert_cons_acc _ _ _ _ _ hc] at hwalk
            cases v with
            | nil => exact absurd rfl hv
            | cons d ds =>
                by_cases hdc : d = c
                · subst hdc
                  rw [walk_cons_some _ leaf _ d ds (listLookup_listInsert_self subs d _)]
                    at hwalk
                  have hwfc : wfN ((listLookup subs d).getD CompletionNode.new) := by
                    cases hlk : listLookup subs d with
                    | none => simpa using wfN_new
                    | some child =>
                        simp only [Option.getD_some]
                        intro u m2 hu hwalk2
                        exact hwf (d :: u) m2 (by simp)
                          (by rw [walk_cons_some subs leaf child d u hlk]; exact hwalk2)
                  cases ds with
                  | nil =>
                      rw [CompletionNode.walk] at hwalk
                      have hm := Option.some.inj hwalk
                      rw [← hm]
                      exact collect_insert_ne_nil incl cs _ []
                  | cons e es =>
                      exact ih _ hwfc (e :: es) m (by simp) hwalk
                · cases hlk : listLookup subs d with
                  | none =>
                      rw [walk_cons_none _ leaf d ds
                        (by rw [listLookup_listInsert_ne subs c d _ hdc]; exact hlk)] at hwalk
                      exact absurd hwalk (Option.noConfusion)
                  | some child =>
                      rw [walk_cons_some _ leaf child d ds
                        (by rw [listLookup_listInsert_ne subs c d _ hdc]; exact hlk)] at hwalk
                      exact hwf (d :: ds) m (by simp)
                        (by rw [walk_cons_some subs leaf child d ds hlk]; exact hwalk)
          · have hc0 : accepted incl c = false := by simpa using hc
            rw [insert_cons_nacc _ _ _ _ _ hc0] at hwalk
            cases v with
            | nil => exact absurd rfl hv
            | cons d ds =>
                apply hwf (d :: ds) m (by simp)
                cases hlk : listLookup subs d with
                | none =>
                    rw [walk_cons_none subs true d ds hlk] at hwalk
                    exact absurd hwalk (Option.noConfusion)
                | some child =>
                    rw [walk_cons_some subs true child d ds hlk] at hwalk
                    rw [walk_cons_some subs leaf child d ds hlk]
                    exact hwalk

theorem wfN_insert_word (t : CompletionTree) (w : List Char) (h : wfN t.root) :
    wfN (t.insert_word w).root := by
  rw [CompletionTree.insert_word]
  by_cases hlen : utf8Len w ≥ t.min_word_len
  · rw [if_pos hlen]
    exact wfN_insert t.inclusions w t.root h
  · rw [if_neg hlen]
    exact h

theorem wfN_foldl (ws : List (List Char)) :
    ∀ t : CompletionTree, wfN t.root →
      wfN ((ws.foldl CompletionTree.insert_word t).root) := by
  induction ws with
  | nil => intro t h; exact h
  | cons w ws ih => intro t h; exact ih _ (wfN_insert_word t w h)

theorem reachable_wfN (t : CompletionTree) (h : Reachable t) : wfN t.root := by
  induction h with
  | default_tree => exact wfN_new
  | with_inclusions incl => exact wfN_new
  | @insert t0 line hr ih =>
      cases hsep : t0.separator with
      | Whitespace =>
          have heq : t0.insert line =
              (splitWhitespace line).foldl CompletionTree.insert_word t0 := by
            rw [CompletionTree.insert, hsep]
          rw [heq]
          exact wfN_foldl _ t0 ih
      | Separator sep =>
          have heq : t0.insert line =
              (splitSep sep line).foldl CompletionTree.insert_word t0 := by
            rw [CompletionTree.insert, hsep]
          rw [heq]
          exact wfN_foldl _ t0 ih
  | @clear t0 hr ih => exact wfN_clear t0.root
  | @set_min_word_len t0 len hr ih => exact ih
  | @set_separator t0 sep hr ih => exact ih

theorem containsW_foldl (ws : List (List Char)) :
    ∀ (t : CompletionTree) (v : List Char), containsW t.root v = true →
      containsW ((ws.foldl CompletionTree.insert_word t).root) v = true := by
  induction ws with
  | nil => intro t v h; exact h
  | cons w ws ih =>
      intro t v h
      apply ih
      rw [CompletionTree.insert_word]
      by_cases hlen : utf8Len w ≥ t.min_word_len
      · rw [if_pos hlen]
        exact containsW_insert_mono t.inclusions v t.root w h
      · rw [if_neg hlen]
        exact h

theorem splitWhitespaceAux_all_non_ws (p : List Char) :
    ∀ acc, (∀ c ∈ p, c.is_whitespace = false) →
      splitWhitespaceAux p acc = if (acc ++ p).isEmpty then [] else [acc ++ p] := by
  induction p with
  | nil => intro acc h; simp [splitWhitespaceAux]
  | cons c cs ih =>
      intro acc h
      have hc : ¬ (c.is_whitespace = true) := by simp [h c (by simp)]
      rw [splitWhitespaceAux, if_neg hc, ih (acc ++ [c]) (fun d hd => h d (by simp [hd]))]
      simp

theorem splitWhitespace_no_ws (p : List Char) (hp : p ≠ [])
    (h : ∀ c ∈ p, c.is_whitespace = false) : splitWhitespace p = [p] := by
  rw [splitWhitespace, splitWhitespaceAux_all_non_ws p [] h]
  simp [hp]

theorem lastWordOf_no_ws (p : List Char) (hp : p ≠ [])
    (h : ∀ c ∈ p, c.is_whitespace = false) : lastWordOf p = p := by
  rw [lastWordOf, splitWhitespace_no_ws p hp h]
  rfl

theorem splitWhitespaceAux_ne_nil_acc (l : List Char) :
    ∀ acc, acc ≠ [] → splitWhitespaceAux l acc ≠ [] := by
  induction l with
  | nil =>
      intro acc h
      rw [splitWhitespaceAux]
      rw [if_neg (by simpa using h)]
      simp
  | cons c cs ih =>
      intro acc h
      rw [splitWhitespaceAux]
      by_cases hc : c.is_whitespace = true
      · rw [if_pos hc, if_neg (by simpa using h)]
        simp
      · rw [if_neg hc]
        exact ih (acc ++ [c]) (by simp)

theorem splitWhitespaceAux_ne_nil (l : List Char) :
    ∀ acc, (∃ c ∈ l, c.is_whitespace = false) → splitWhitespaceAux l acc ≠ [] := by
  induction l with
  | nil =>
      intro acc h
      rcases h with ⟨c, hc, _⟩
      simp at hc
  | cons c cs ih =>
      intro acc h
      rw [splitWhitespaceAux]
      by_cases hc : c.is_whitespace = true
      · rcases h with ⟨d, hd, hdw⟩
        have hdcs : d ∈ cs := by
          rcases List.mem_cons.mp hd with he | he
          · subst he
            rw [hc] at hdw
            exact absurd hdw (by simp)
          · exact he
        rw [if_pos hc]
        by_cases ha : acc.isEmpty = true
        · rw [if_pos ha]
          exact ih [] ⟨d, hdcs, hdw⟩
        · rw [if_neg ha]
          simp
      · rw [if_neg hc]
        exact splitWhitespaceAux_ne_nil_acc cs (acc ++ [c]) (by simp)

theorem mem_splitWhitespaceAux_ne_nil (l : List Char) :
    ∀ acc tkn, tkn ∈ splitWhitespaceAux l acc → tkn ≠ [] := by
  induction l with
  | nil =>
      intro acc tkn h
      rw [splitWhitespaceAux] at h
      by_cases ha : acc.isEmpty = true
      · rw [if_pos ha] at h
        simp at h
      · rw [if_neg ha] at h
        have he : tkn = acc := by simpa using h
        subst he
        simpa using ha
  | cons c cs ih =>
      intro acc tkn h
      rw [splitWhitespaceAux] at h
      by_cases hc : c.is_whitespace = true
      · rw [if_pos hc] at h
        by_cases ha : acc.isEmpty = true
        · rw [if_pos ha] at h
          exact ih [] tkn h
        · rw [if_neg ha] at h
          rcases List.mem_cons.mp h with he | he
          · subst he
            simpa using ha
          · exact ih [] tkn he
      · rw [if_neg hc] at h
        exact ih (acc ++ [c]) tkn h

theorem lastWordOf_ne_nil (line : List Char) (h : ∃ c ∈ line, c.is_whitespace = false) :
    lastWordOf line ≠ [] := by
  have hne : splitWhitespace line ≠ [] := splitWhitespaceAux_ne_nil line [] h
  rw [lastWordOf, List.getLast?_eq_getLast _ hne]
  simp only [Option.getD_some]
  exact mem_splitWhitespaceAux_ne_nil line [] _ (List.getLast_mem hne)

theorem lexLe_nil (b : List Char) : lexLe [] b = true := by
  rw [lexLe]

theorem lexLe_cons (a b : Char) (as bs : List Char) :
    lexLe (a :: as) (b :: bs) =
      if a.toNat < b.toNat then true
      else if a.toNat = b.toNat then lexLe as bs
      else false := by
  rw [lexLe]

theorem lexLe_total (a : List Char) : ∀ b, lexLe a b = true ∨ lexLe b a = true := by
  induction a with
  | nil => intro b; left; exact lexLe_nil b
  | cons x xs ih =>
      intro b
      cases b with
      | nil => right; exact lexLe_nil (x :: xs)
      | cons y ys =>
          rw [lexLe_cons, lexLe_cons]
          by_cases h1 : x.toNat < y.toNat
          · left; rw [if_pos h1]
          · by_cases h2 : x.toNat = y.toNat
            · rcases ih ys with h | h
              · left
                rw [if_neg h1, if_pos h2]
                exact h
              · right
                rw [if_neg (by omega : ¬ y.toNat < x.toNat), if_pos h2.symm]
                exact h
            · right
              rw [if_pos (by omega : y.toNat < x.toNat)]

theorem lexLe_trans (a : List Char) :
    ∀ b c, lexLe a b = true → lexLe b c = true → lexLe a c = true := by
  induction a with
  | nil => intro b c h1 h2; exact lexLe_nil c
  | cons x xs ih =>
      intro b c h1 h2
      cases b with
      | nil => rw [lexLe] at h1; exact absurd h1 (by simp)
      | cons y ys =>
          cases c with
          | nil => rw [lexLe] at h2; exact absurd h2 (by simp)
          | cons z zs =>
              rw [lexLe_cons] at h1 h2 ⊢
              by_cases hxy : x.toNat < y.toNat
              · by_cases hyz : y.toNat < z.toNat
                · rw [if_pos (by omega : x.toNat < z.toNat)]
                · by_cases hyz2 : y.toNat = z.toNat
                  · rw [if_pos (by omega : x.toNat < z.toNat)]
                  · rw [if_neg hyz, if_neg hyz2] at h2
                    exact absurd h2 (by simp)
              · by_cases hxy2 : x.toNat = y.toNat
                · rw [if_neg hxy, if_pos hxy2] at h1
                  by_cases hyz : y.toNat < z.toNat
                  · rw [if_pos (by omega : x.toNat < z.toNat)]
                  · by_cases hyz2 : y.toNat = z.toNat
                    · rw [if_neg hyz, if_pos hyz2] at h2
                      rw [if_neg (by omega : ¬ x.toNat < z.toNat),
                        if_pos (by omega : x.toNat = z.toNat)]
                      exact ih ys zs h1 h2
                    · rw [if_neg hyz, if_neg hyz2] at h2
                      exact absurd h2 (by simp)
                · rw [if_neg hxy, if_neg hxy2] at h1
                  exact absurd h1 (by simp)

theorem lexLe_append_left (p : List Char) :
    ∀ a b, lexLe a b = true → lexLe (p ++ a) (p ++ b) = true := by
  induction p with
  | nil => intro a b h; simpa using h
  | cons x xs ih =>
      intro a b h
      simp only [List.cons_append]
      rw [lexLe_cons, if_neg (by omega : ¬ x.toNat < x.toNat), if_pos rfl]
      exact ih a b h

theorem mem_insertSorted (x : List Char) (l : List (List Char)) (a : List Char) :
    a ∈ insertSorted x l ↔ a = x ∨ a ∈ l := by
  induction l with
  | nil => simp [insertSorted]
  | cons y ys ih =>
      rw [insertSorted]
      by_cases h : lexLe x y = true
      · rw [if_pos h]
        simp
      · rw [if_neg h]
        simp only [List.mem_cons, ih]
        tauto

theorem mem_sortStrings (l : List (List Char)) (a : List Char) :
    a ∈ sortStrings l ↔ a ∈ l := by
  induction l with
  | nil => simp [sortStrings]
  | cons x xs ih =>
      rw [sortStrings]
      rw [mem_insertSorted]
      simp [ih]

theorem length_insertSorted (x : List Char) (l : List (List Char)) :
    (insertSorted x l).length = l.length + 1 := by
  induction l with
  | nil => simp [insertSorted]
  | cons y ys ih =>
      rw [insertSorted]
      by_cases h : lexLe x y = true
      · rw [if_pos h]
        simp
      · rw [if_neg h]
        simp [ih]

theorem length_sortStrings (l : List (List Char)) :
    (sortStrings l).length = l.length := by
  induction l with
  | nil => rfl
  | cons x xs ih =>
      rw [sortStrings, length_insertSorted, ih]
      rfl

theorem pairwise_insertSorted (x : List Char) (l : List (List Char))
    (hl : l.Pairwise (fun a b => lexLe a b = true)) :
    (insertSorted x l).Pairwise (fun a b => lexLe a b = true) := by
  induction l with
  | nil => simp [insertSorted]
  | cons y ys ih =>
      rw [insertSorted]
      rcases List.pairwise_cons.mp hl with ⟨hy, hys⟩
      by_cases h : lexLe x y = true
      · rw [if_pos h]
        refine List.pairwise_cons.mpr ⟨?_, hl⟩
        intro b hb
        rcases List.mem_cons.mp hb with he | he
        · subst he
          exact h
        · exact lexLe_trans x y b h (hy b he)
      · rw [if_neg h]
        refine List.pairwise_cons.mpr ⟨?_, ih hys⟩
        intro b hb
        rcases (mem_insertSorted x ys b).mp hb with he | he
        · rcases lexLe_total x y with h2 | h2
          · exact absurd h2 h
          · rw [he]
            exact h2
        · exact hy b he

theorem pairwise_sortStrings (l : List (List Char)) :
    (sortStrings l).Pairwise (fun a b => lexLe a b = true) := by
  induction l with
  | nil => simp [sortStrings]
  | cons x xs ih =>
      rw [sortStrings]
      exact pairwise_insertSorted x _ ih

/-- C3: node insertion truncates a word at its first non-word-constituent
character: inserting a word builds exactly the same tree as inserting its
longest accepted prefix, and that accepted prefix ends on a node marked
terminal. -/
theorem c3_truncation_spec (incl : List Char) (n : CompletionNode) (w : List Char) :
    n.insert incl w = n.insert incl (accForm incl w) ∧
    containsW (n.insert incl w) (accForm incl w) = true :=
  ⟨insert_accForm incl n w, containsW_insert_accForm incl n w⟩

/-- C9: every tree state reachable through the public API has `size ≥ 1`:
the root node always exists. -/
theorem c9_size_ge_one (t : CompletionTree) (_hr : Reachable t) : 1 ≤ t.size := by
  rw [CompletionTree.size]
  cases t.root with
  | mk subs leaf =>
      rw [CompletionNode.subnode_count]
      omega

/-- Witness for C9 at the default tree. -/
theorem c9_size_ge_one_witness : 1 ≤ CompletionTree.default.size :=
  c9_size_ge_one CompletionTree.default Reachable.default_tree

/-- C4 counterexample: after inserting `"/aaaa"` (which marks the root
terminal) and clearing, `word_count` is 1, not 0 — the claim that
`clear` always restores `word_count() == 0` fails on this reachable
state. -/
theorem c4_counterexample :
    ((CompletionTree.default.insert "/aaaa".toList).clear).size = 1 ∧
    ((CompletionTree.default.insert "/aaaa".toList).clear).word_count ≠ 0 :=
  ⟨by decide, by decide⟩

/-- C4 amended: after `clear()`, `size()` is always 1, and `word_count()`
is 0 unless the root itself carried the terminal flag (in which case it
is 1), because `Node::clear` empties the subnode map but leaves the
node's own `leaf` flag untouched. -/
theorem c4_amended (t : CompletionTree) :
    t.clear.size = 1 ∧ t.clear.word_count = (if t.root.leaf = true then 1 else 0) := by
  obtain ⟨root, incl, mwl, sep⟩ := t
  cases root with
  | mk subs leaf =>
      refine ⟨?_, ?_⟩
      · show (CompletionNode.mk subs leaf).clear.subnode_count = 1
        rw [CompletionNode.clear, CompletionNode.subnode_count, subnodeCountL]
      · show (CompletionNode.mk subs leaf).clear.word_count =
          if (CompletionNode.mk subs leaf).leaf = true then 1 else 0
        rw [CompletionNode.clear, word_count_mk, wordCountL, CompletionNode.leaf]
        cases leaf <;> simp

/-- C5 counterexample: `"éé"` has 2 characters but 4 UTF-8 bytes; with
`min_word_len = 3` the code inserts it (`word_count` becomes 1), whereas
the claim says a token of fewer than `min_word_len` characters is
ignored. -/
theorem c5_counterexample :
    "éé".toList.length = 2 ∧
    utf8Len "éé".toList = 4 ∧
    (CompletionTree.default.set_min_word_len 3).min_word_len = 3 ∧
    ((CompletionTree.default.set_min_word_len 3).insert "éé".toList).word_count = 1 :=
  ⟨by decide, by decide, by decide, by decide⟩

/-- C5 amended: the filter compares the token's UTF-8 byte length
(`str::len`), not its character count: a token of fewer bytes than
`min_word_len` leaves the tree unchanged, and a token of at least
`min_word_len` bytes is handed to `Node::insert`, after which its
accepted form is stored in the trie. -/
theorem c5_amended (t : CompletionTree) (w : List Char) :
    (utf8Len w < t.min_word_len → t.insert_word w = t) ∧
    (t.min_word_len ≤ utf8Len w →
      (t.insert_word w).root = t.root.insert t.inclusions w ∧
      containsW ((t.insert_word w).root) (accForm t.inclusions w) = true) := by
  constructor
  · intro h
    rw [CompletionTree.insert_word, if_neg (by omega)]
  · intro h
    have hr : (t.insert_word w).root = t.root.insert t.inclusions w := by
      rw [CompletionTree.insert_word, if_pos h]
    exact ⟨hr, by rw [hr]; exact containsW_insert_accForm t.inclusions t.root w⟩

/-- Witness for C5 amended: a 2-byte token is ignored at the default
threshold, a 5-byte token is stored. -/
theorem c5_amended_witness :
    (CompletionTree.default.insert_word "hi".toList = CompletionTree.default) ∧
    containsW ((CompletionTree.default.insert_word "hello".toList).root)
      (accForm CompletionTree.default.inclusions "hello".toList) = true :=
  ⟨(c5_amended CompletionTree.default "hi".toList).1 (by decide),
   ((c5_amended CompletionTree.default "hello".toList).2 (by decide)).2⟩

/-- C10: inserting a token that passes the length filter but starts
with a non-word-constituent character marks the (fresh) root itself
terminal, creates no child, makes `word_count` 1 although no non-empty
character sequence completes, and `clear` does not reset that root
terminal flag. -/
theorem c10_root_terminal (t : CompletionTree) (c : Char) (cs : List Char)
    (hroot : t.root = CompletionNode.new)
    (hlen : t.min_word_len ≤ utf8Len (c :: cs))
    (hna : accepted t.inclusions c = false) :
    (t.insert_word (c :: cs)).root = CompletionNode.mk [] true ∧
    (t.insert_word (c :: cs)).word_count = 1 ∧
    (∀ p, p ≠ [] → (t.insert_word (c :: cs)).root.complete p = none) ∧
    ((t.insert_word (c :: cs)).clear).root.leaf = true ∧
    ((t.insert_word (c :: cs)).clear).word_count = 1 := by
  have hr : (t.insert_word (c :: cs)).root = CompletionNode.mk [] true := by
    rw [CompletionTree.insert_word, if_pos hlen]
    show t.root.insert t.inclusions (c :: cs) = _
    rw [hroot, CompletionNode.new, insert_cons_nacc [] false t.inclusions c cs hna]
  refine ⟨hr, ?_, ?_, ?_, ?_⟩
  · rw [CompletionTree.word_count, hr]
    rfl
  · intro p hp
    cases p with
    | nil => exact absurd rfl hp
    | cons d ds =>
        rw [hr]
        rfl
  · show ((t.insert_word (c :: cs)).root.clear).leaf = true
    rw [hr]
    rfl
  · show ((t.insert_word (c :: cs)).root.clear).word_count = 1
    rw [hr]
    rfl

/-- Witness for C10 at `"/aaaa"` on the default tree. -/
theorem c10_root_terminal_witness :
    (CompletionTree.default.insert_word ('/' :: "aaaa".toList)).root
        = CompletionNode.mk [] true ∧
    (CompletionTree.default.insert_word ('/' :: "aaaa".toList)).word_count = 1 ∧
    (∀ p, p ≠ [] →
      (CompletionTree.default.insert_word ('/' :: "aaaa".toList)).root.complete p = none) ∧
    ((CompletionTree.default.insert_word ('/' :: "aaaa".toList)).clear).root.leaf = true ∧
    ((CompletionTree.default.insert_word ('/' :: "aaaa".toList)).clear).word_count = 1 :=
  c10_root_terminal CompletionTree.default '/' "aaaa".toList rfl (by decide) (by decide)

theorem keysOK_insert_word (t : CompletionTree) (w : List Char) (h : keysOK t.root = true) :
    keysOK (t.insert_word w).root = true := by
  rw [CompletionTree.insert_word]
  by_cases hlen : utf8Len w ≥ t.min_word_len
  · rw [if_pos hlen]
    exact keysOK_insert t.inclusions w t.root h
  · rw [if_neg hlen]
    exact h

theorem insert_word_fields (t : CompletionTree) (w : List Char) :
    (t.insert_word w).inclusions = t.inclusions ∧
    (t.insert_word w).min_word_len = t.min_word_len := by
  rw [CompletionTree.insert_word]
  by_cases hlen : utf8Len w ≥ t.min_word_len
  · rw [if_pos hlen]
    exact ⟨rfl, rfl⟩
  · rw [if_neg hlen]
    exact ⟨rfl, rfl⟩

theorem foldl_word_count (ws : List (List Char)) :
    ∀ t : CompletionTree, keysOK t.root = true →
      (∀ w ∈ ws, t.min_word_len ≤ utf8Len w) →
      (ws.map (accForm t.inclusions)).Nodup →
      (∀ w ∈ ws, containsW t.root (accForm t.inclusions w) = false) →
      (ws.foldl CompletionTree.insert_word t).word_count = t.word_count + ws.length := by
  induction ws with
  | nil => intro t _ _ _ _; simp
  | cons w ws ih =>
      intro t hok hlen hnd hnc
      have hmin : t.min_word_len ≤ utf8Len w := hlen w (by simp)
      have hroot : (t.insert_word w).root = t.root.insert t.inclusions w := by
        rw [CompletionTree.insert_word, if_pos hmin]
      have hfields := insert_word_fields t w
      have hndc : accForm t.inclusions w ∉ ws.map (accForm t.inclusions) ∧
          (ws.map (accForm t.inclusions)).Nodup := by
        rw [List.map_cons] at hnd
        exact List.nodup_cons.mp hnd
      have hwc1 : (t.insert_word w).word_count = t.word_count + 1 := by
        rw [CompletionTree.word_count, hroot,
          word_count_insert t.inclusions t.root w hok, hnc w (by simp)]
        simp [CompletionTree.word_count]
      rw [List.foldl_cons]
      rw [ih (t.insert_word w) ?ok ?len ?nd ?nc]
      · rw [hwc1, List.length_cons]
        omega
      case ok => exact keysOK_insert_word t w hok
      case len =>
          intro v hv
          rw [hfields.2]
          exact hlen v (by simp [hv])
      case nd =>
          rw [hfields.1]
          exact hndc.2
      case nc =>
          intro v hv
          rw [hfields.1, hroot]
          cases hcc : containsW (t.root.insert t.inclusions w) (accForm t.inclusions v) with
          | false => rfl
          | true =>
              exfalso
              rcases containsW_insert_rev t.inclusions t.root w _ hcc with hc1 | hc1
              · rw [hnc v (by simp [hv])] at hc1
                exact absurd hc1 (by simp)
              · exact hndc.1 (by rw [← hc1]; exact List.mem_map_of_mem _ hv)

/-- C7 counterexample: the two distinct tokens `"abcde!"` and `"abcde?"`
share the accepted form `"abcde"`, so after inserting both `word_count`
is 1, not 2 as the claim demands. -/
theorem c7_counterexample :
    (CompletionTree.default.insert "abcde! abcde?".toList).word_count = 1 ∧
    (CompletionTree.default.insert "abcde! abcde?".toList).word_count ≠ 2 :=
  ⟨by decide, by decide⟩

/-- C7 amended: starting from a fresh tree, inserting N tokens of byte
length at least `min_word_len` whose accepted forms (truncations at the
first non-word-constituent character) are pairwise distinct makes
`word_count()` equal N. -/
theorem c7_amended (t : CompletionTree) (ws : List (List Char))
    (hroot : t.root = CompletionNode.new)
    (hlen : ∀ w ∈ ws, t.min_word_len ≤ utf8Len w)
    (hnd : (ws.map (accForm t.inclusions)).Nodup) :
    (ws.foldl CompletionTree.insert_word t).word_count = ws.length := by
  have h0 : t.word_count = 0 := by
    rw [CompletionTree.word_count, hroot]
    rfl
  rw [foldl_word_count ws t ?ok hlen hnd ?nc, h0, Nat.zero_add]
  case ok =>
      rw [hroot]
      exact keysOK_new
  case nc =>
      intro w hw
      rw [hroot]
      exact containsW_new _

/-- Witness for C7 amended: two distinct five-byte words give
`word_count = 2`. -/
theorem c7_amended_witness :
    (["hello".toList, "world".toList].foldl CompletionTree.insert_word
      CompletionTree.default).word_count = 2 :=
  c7_amended CompletionTree.default ["hello".toList, "world".toList] rfl
    (by decide) (by decide)

/-- C2: whenever `complete` returns a list, it is sorted ascending in
code-point-lexicographic order and every element is the original full
line with one suffix discovered at the walked node appended. -/
theorem c2_sorted_extensions (t : CompletionTree) (line : List Char) (l : List (List Char))
    (h : t.complete line = some l) :
    l.Pairwise (fun a b => lexLe a b = true) ∧
    ∃ exts, t.root.complete (lastWordOf line) = some exts ∧
      ∀ r ∈ l, ∃ ext ∈ exts, r = line ++ ext := by
  rw [CompletionTree.complete] at h
  by_cases hline : line ≠ []
  · rw [if_pos hline] at h
    cases hnc : t.root.complete (lastWordOf line) with
    | none =>
        rw [hnc] at h
        simp at h
    | some exts =>
        rw [hnc] at h
        have hl : l = (sortStrings exts).map fun ext => line ++ ext := by
          have h2 : some ((sortStrings exts).map fun ext => line ++ ext) = some l := h
          exact (Option.some.inj h2).symm
        constructor
        · rw [hl]
          exact List.Pairwise.map _ (fun a b hab => lexLe_append_left line a b hab)
            (pairwise_sortStrings exts)
        · refine ⟨exts, rfl, ?_⟩
          intro r hr
          rw [hl] at hr
          rcases List.mem_map.mp hr with ⟨ext, hext, hre⟩
          exact ⟨ext, (mem_sortStrings exts ext).mp hext, hre.symm⟩
  · rw [if_neg hline] at h
    exact absurd h (by simp)

/-- Witness for C2 on the batcave example from the crate documentation. -/
theorem c2_sorted_extensions_witness :
    ((CompletionTree.default.insert "batman robin batmobile batcave robber".toList).complete
        "to the bat".toList
      = some ["to the batcave".toList, "to the batman".toList, "to the batmobile".toList]) ∧
    (["to the batcave".toList, "to the batman".toList,
        "to the batmobile".toList].Pairwise (fun a b => lexLe a b = true) ∧
      ∃ exts,
        (CompletionTree.default.insert
            "batman robin batmobile batcave robber".toList).root.complete
          (lastWordOf "to the bat".toList) = some exts ∧
        ∀ r ∈ ["to the batcave".toList, "to the batman".toList, "to the batmobile".toList],
          ∃ ext ∈ exts, r = "to the bat".toList ++ ext) :=
  ⟨by decide, c2_sorted_extensions _ _ _ (by decide)⟩

/-- C8: the separator configuration never changes what `complete`
returns, and on a non-empty line `complete` is fully determined by
walking the root along the last whitespace-delimited token of the
line. -/
theorem c8_complete_whitespace_only (t : CompletionTree) (sep : WordSeparator)
    (line : List Char) :
    (t.set_separator sep).complete line = t.complete line ∧
    (line ≠ [] →
      t.complete line = (t.root.complete (lastWordOf line)).map
        (fun exts => (sortStrings exts).map fun ext => line ++ ext)) := by
  constructor
  · obtain ⟨root, incl, mwl, sep0⟩ := t
    rfl
  · intro hline
    rw [CompletionTree.complete, if_pos hline]
    cases t.root.complete (lastWordOf line) with
    | none => rfl
    | some exts => rfl

/-- Witness for C8 at a concrete tree, separator and line. -/
theorem c8_complete_whitespace_only_witness :
    ((CompletionTree.default.set_separator (WordSeparator.Separator ['|'])).complete
        "he".toList = CompletionTree.default.complete "he".toList) ∧
    (CompletionTree.default.complete "he".toList =
      (CompletionTree.default.root.complete (lastWordOf "he".toList)).map
        (fun exts => (sortStrings exts).map fun ext => "he".toList ++ ext)) :=
  ⟨(c8_complete_whitespace_only CompletionTree.default
      (WordSeparator.Separator ['|']) "he".toList).1,
   (c8_complete_whitespace_only CompletionTree.default
      (WordSeparator.Separator ['|']) "he".toList).2 (by decide)⟩

/-- C6 counterexample: on a fresh tree the non-empty, all-whitespace
line `" "` makes `complete` return `Some []` — an empty result list in
place of the "no match" sentinel, contradicting the claim that every
returned list is non-empty. -/
theorem c6_counterexample :
    (" ".toList ≠ []) ∧ CompletionTree.default.complete " ".toList = some [] :=
  ⟨by decide, by decide⟩

/-- C6 amended: `complete` returns the "no match" sentinel exactly when
the line is empty or the walk of the last whitespace-delimited token
fails, and every returned list is non-empty provided the line contains
at least one non-whitespace character (a non-empty all-whitespace line
walks the empty prefix and can yield `Some []` on an empty root). -/
theorem c6_amended (t : CompletionTree) (line : List Char) (hr : Reachable t) :
    (t.complete line = none ↔ line = [] ∨ t.root.walk (lastWordOf line) = none) ∧
    (∀ l, t.complete line = some l → (∃ c ∈ line, c.is_whitespace = false) → l ≠ []) := by
  constructor
  · constructor
    · intro h
      by_cases hline : line = []
      · exact Or.inl hline
      · right
        rw [CompletionTree.complete, if_pos hline, node_complete_eq_walk] at h
        cases hw : t.root.walk (lastWordOf line) with
        | none => rfl
        | some m =>
            rw [hw] at h
            simp at h
    · intro h
      rcases h with hline | hwalk
      · rw [CompletionTree.complete, if_neg (by simp [hline])]
      · rw [CompletionTree.complete]
        by_cases hline : line = []
        · rw [if_neg (by simp [hline])]
        · rw [if_pos hline, node_complete_eq_walk, hwalk]
          rfl
  · intro l hsome hex
    have hline : line ≠ [] := by
      rcases hex with ⟨c, hc, _⟩
      intro he
      rw [he] at hc
      simp at hc
    rw [CompletionTree.complete, if_pos hline, node_complete_eq_walk] at hsome
    cases hw : t.root.walk (lastWordOf line) with
    | none =>
        rw [hw] at hsome
        simp at hsome
    | some m =>
        rw [hw] at hsome
        have hl : l = (sortStrings (m.collect [])).map fun ext => line ++ ext := by
          have h2 : some ((sortStrings (m.collect [])).map fun ext => line ++ ext)
              = some l := hsome
          exact (Option.some.inj h2).symm
        have hcol : m.collect [] ≠ [] :=
          reachable_wfN t hr (lastWordOf line) m (lastWordOf_ne_nil line hex) hw
        rw [hl]
        intro hemp
        apply hcol
        have hlen2 := congrArg List.length hemp
        rw [List.length_map, length_sortStrings] at hlen2
        exact List.length_eq_zero.mp (by simpa using hlen2)

/-- Witness for C6 amended: after inserting `"hello"`, completing
`"he"` yields the non-empty list `["hello"]`. -/
theorem c6_amended_witness : (["hello".toList] : List (List Char)) ≠ [] :=
  (c6_amended (CompletionTree.default.insert "hello".toList) "he".toList
      (Reachable.insert "hello".toList Reachable.default_tree)).2
    ["hello".toList] (by decide) (by decide)

/-- C1 counterexample: with whitespace in the inclusion set and a
custom separator, the token `"ab cd"` is inserted whole (its accepted
form is `"ab cd"`, and it passes the length filter, as `word_count = 1`
shows), yet completing its non-empty prefix `"ab c"` returns the
sentinel instead of a list containing `"ab cd"`, because `complete`
walks only the last whitespace-delimited token `"c"`. -/
theorem c1_counterexample :
    ((CompletionTree.with_inclusions [' ']).set_separator
        (WordSeparator.Separator ['|'])).min_word_len ≤ utf8Len "ab cd".toList ∧
    accForm [' '] "ab cd".toList = "ab c".toList ++ "d".toList ∧
    "ab c".toList ≠ [] ∧
    (((CompletionTree.with_inclusions [' ']).set_separator
        (WordSeparator.Separator ['|'])).insert "ab cd".toList).word_count = 1 ∧
    (((CompletionTree.with_inclusions [' ']).set_separator
        (WordSeparator.Separator ['|'])).insert "ab cd".toList).complete "ab c".toList
      = none :=
  ⟨by decide, by decide, by decide, by decide, by decide⟩

/-- C1 amended: for every token inserted past the length filter and
every non-empty prefix of its accepted form that contains no whitespace
character, `complete` on that prefix — also after any further token
insertions — returns a list containing the token's accepted form (the
prefix extended by the stored suffix). -/
theorem c1_amended (t : CompletionTree) (w p s : List Char) (ws : List (List Char))
    (hlen : t.min_word_len ≤ utf8Len w)
    (hform : accForm t.inclusions w = p ++ s)
    (hp : p ≠ [])
    (hpw : ∀ c ∈ p, c.is_whitespace = false) :
    ∃ l, (ws.foldl CompletionTree.insert_word (t.insert_word w)).complete p = some l ∧
      (p ++ s) ∈ l := by
  have hroot : (t.insert_word w).root = t.root.insert t.inclusions w := by
    rw [CompletionTree.insert_word, if_pos hlen]
  have hcont1 : containsW (t.insert_word w).root (p ++ s) = true := by
    rw [hroot, ← hform]
    exact containsW_insert_accForm t.inclusions t.root w
  have hcont : containsW ((ws.foldl CompletionTree.insert_word (t.insert_word w)).root)
      (p ++ s) = true := containsW_foldl ws _ _ hcont1
  rw [containsW] at hcont
  cases hw : (ws.foldl CompletionTree.insert_word (t.insert_word w)).root.walk (p ++ s) with
  | none =>
      rw [hw] at hcont
      exact absurd hcont (by simp)
  | some mfin =>
      rw [hw] at hcont
      have hsplit := walk_append
        ((ws.foldl CompletionTree.insert_word (t.insert_word w)).root) p s
      rw [hw] at hsplit
      cases hwp : (ws.foldl CompletionTree.insert_word (t.insert_word w)).root.walk p with
      | none =>
          rw [hwp] at hsplit
          simp at hsplit
      | some m =>
          rw [hwp] at hsplit
          have hms : m.walk s = some mfin := by
            simpa using hsplit.symm
          have hcm : containsW m s = true := by
            rw [containsW, hms]
            exact hcont
          have hmem : s ∈ m.collect [] := by
            simpa using mem_collect_of_containsW s m [] hcm
          refine ⟨(sortStrings (m.collect [])).map fun ext => p ++ ext, ?_, ?_⟩
          · rw [CompletionTree.complete, if_pos hp, lastWordOf_no_ws p hp hpw,
              node_complete_eq_walk, hwp]
            rfl
          · exact List.mem_map.mpr ⟨s, (mem_sortStrings _ s).mpr hmem, rfl⟩

/-- Witness for C1 amended: insert `"hello"`, complete the prefix
`"he"`; the result contains `"he" ++ "llo"`. -/
theorem c1_amended_witness :
    ∃ l, (([] : List (List Char)).foldl CompletionTree.insert_word
        (CompletionTree.default.insert_word "hello".toList)).complete "he".toList
      = some l ∧ ("he".toList ++ "llo".toList) ∈ l :=
  c1_amended CompletionTree.default "hello".toList "he".toList "llo".toList []
    (by decide) (by decide) (by decide) (by decide)

example : (CompletionTree.default.insert "batman robin batmobile batcave robber".toList).word_count
    = 5 := by decide

example : (CompletionTree.default.insert "wording".toList).complete "wo".toList
    = some ["wording".toList] := by decide

example : CompletionTree.default.complete "".toList = none := by decide

example : (CompletionTree.default.insert "test testersson".toList).complete "barf".toList
    = none := by decide

example : (CompletionTree.default.insert "batman robin batmobile batcave robber".toList).complete
    "to the bat".toList
    = some ["to the batcave".toList, "to the batman".toList, "to the batmobile".toList] := by
  decide
